import Mathlib

/-!
Shallow embedding of the core of `Static-Website-Search`:
the Murmur3 x86-32 hash (`src/hasher/murmur3.rs` and the legacy copy
`src/murmur3.rs`), the Spectral Bloom Filter
(`src/estimator/spectral_bloom_filter.rs`) and the base-2^15 codec
(`src/compressor/base2p15.rs`).

Machine integers (`u8`, `u16`, `u32`) are embedded as `Nat` with explicit
reduction `% 2^32` (`u32`) wherever the Rust code can wrap; byte sequences
(`&[u8]`, obtained in the program from `String::as_bytes`) are embedded as
`List Nat`; Rust `String`s of characters are embedded as `List Char`.
Fallible operations (Rust code that can panic via `Option::unwrap` or
debug-mode subtraction overflow) are embedded as `Option`-valued functions,
`none` standing for the panic.
-/

namespace StaticWebsiteSearch

/-- Reduce to a 32-bit value, as Rust `u32` wrapping arithmetic does. -/
def u32 (x : Nat) : Nat := x % 4294967296

/-- Rust `u32::rotate_left`: `(x << r | x >> (32 - r))` on a 32-bit value. -/
def rotl32 (x r : Nat) : Nat := u32 ((x <<< r) ||| (x >>> (32 - r)))

/-- Little-endian `u32` value of an up-to-4-byte chunk, zero padded
(Rust: copy the chunk into `[0u8; 4]`, then `u32::from_le_bytes`). -/
def leVal (chunk : List Nat) : Nat :=
  chunk.getD 0 0 + 256 * chunk.getD 1 0 + 65536 * chunk.getD 2 0 +
    16777216 * chunk.getD 3 0

/-- Rust `bytes.chunks(4)`: split into 4-byte chunks, last chunk may be
shorter (1 to 3 bytes). -/
def chunks4 : List Nat → List (List Nat)
  | [] => []
  | [a] => [[a]]
  | [a, b] => [[a, b]]
  | [a, b, c] => [[a, b, c]]
  | a :: b :: c :: d :: rest => [a, b, c, d] :: chunks4 rest

/-- One iteration of the block loop of `murmurhash3_x86_32` in
`src/hasher/murmur3.rs`: mix the chunk's LE value into the accumulator; the
rotate/multiply/add step runs only for full 4-byte chunks. -/
def mixChunk (hash : Nat) (chunk : List Nat) : Nat :=
  let k := u32 (leVal chunk * 0xcc9e2d51)
  let k := rotl32 k 15
  let k := u32 (k * 0x1b873593)
  let hash := hash ^^^ k
  if chunk.length = 4 then u32 (rotl32 hash 13 * 5 + 0xe6546b64) else hash

/-- `murmurhash3_x86_32` from `src/hasher/murmur3.rs` (the hash used by the
Spectral Bloom Filter): an empty byte sequence returns 0 immediately;
otherwise mix every 4-byte chunk (the final short chunk is folded in
without the rotate/multiply/add step), xor in the length, and apply the
avalanche finalizer. -/
def murmurhash3_x86_32 (bytes : List Nat) (seed : Nat) : Nat :=
  if bytes.length = 0 then 0
  else
    let hash := (chunks4 bytes).foldl mixChunk seed
    let hash := hash ^^^ u32 bytes.length
    let hash := hash ^^^ (hash >>> 16)
    let hash := u32 (hash * 0x85ebca6b)
    let hash := hash ^^^ (hash >>> 13)
    let hash := u32 (hash * 0xc2b2ae35)
    hash ^^^ (hash >>> 16)

/-- `fmix32` from the legacy `src/murmur3.rs` (the mhallin port). -/
def fmix32 (h : Nat) : Nat :=
  let h := h ^^^ (h >>> 16)
  let h := u32 (h * 0x85ebca6b)
  let h := h ^^^ (h >>> 13)
  let h := u32 (h * 0xc2b2ae35)
  h ^^^ (h >>> 16)

/-- One full-block iteration of the legacy `murmurhash3_x86_32` in
`src/murmur3.rs`. -/
def legacyBlockStep (h1 k1 : Nat) : Nat :=
  let k1 := u32 (k1 * 0xcc9e2d51)
  let k1 := rotl32 k1 15
  let k1 := u32 (k1 * 0x1b873593)
  let h1 := h1 ^^^ k1
  let h1 := rotl32 h1 13
  u32 (u32 (h1 * 5) + 0xe6546b64)

/-- The legacy `murmurhash3_x86_32` from `src/murmur3.rs`: processes
`len / 4` full little-endian blocks (read through `get_32_block`), folds the
0-3 byte tail, xors in the length, finalizes with `fmix32`.  It has no
special case for an empty byte sequence: on `[]` it returns `fmix32 seed`. -/
def murmurLegacy (bytes : List Nat) (seed : Nat) : Nat :=
  let len := bytes.length
  let blockCount := len / 4
  let h1 := (List.range blockCount).foldl
    (fun h i => legacyBlockStep h (leVal ((bytes.drop (4 * i)).take 4))) seed
  let k1 : Nat := 0
  let k1 := if len % 4 = 3 then k1 ^^^ (bytes.getD (blockCount * 4 + 2) 0 <<< 16) else k1
  let k1 := if len % 4 ≥ 2 then k1 ^^^ (bytes.getD (blockCount * 4 + 1) 0 <<< 8) else k1
  let h1 :=
    if len % 4 ≥ 1 then
      let k1 := k1 ^^^ bytes.getD (blockCount * 4) 0
      let k1 := u32 (k1 * 0xcc9e2d51)
      let k1 := rotl32 k1 15
      let k1 := u32 (k1 * 0x1b873593)
      h1 ^^^ k1
    else h1
  fmix32 (h1 ^^^ u32 len)

/-! ## Spectral Bloom Filter (`src/estimator/spectral_bloom_filter.rs`)

Keys are Rust `String`s, but the filter only ever observes a key through
`key.as_bytes()`; since UTF-8 encoding is injective we embed a key directly
as its byte sequence, a `List Nat`.

`SpectralBloomFilter::new` first calls `optimal_size`, which computes the
slot count `m` and the hash count `k` with `f32` arithmetic
(`m = ceil(-n·ln p / (ln 2)^2)`, `k = ceil((m_real/n)·ln 2)`).  Floating
point is not embedded; the construction below takes the pair `(m, k)` that
`optimal_size` returned as parameters.  For every rate `p ∈ (0,1)` and
`n ≥ 1` distinct keys the formula yields `m ≥ 1` and `k ≥ 1`, the hypotheses
used by the theorems below.  Two degenerate sizings exist:
* `n = 0` (empty map): Rust computes `sbf_size = -0.0` and
  `n_hash_functions = NaN`, and both casts `as u32` produce `0`, so the
  empty frequency map builds with `m = 0`, `k = 0` (used in the C6
  analysis);
* `p = 1` (allowed by the spec's rate domain `(0,1]`): `ln 1 = 0` makes
  `sbf_size = -0.0` and `n_hash_functions = -0.0 / n · ln 2 = -0.0`, so
  `optimal_size` returns `(m, k) = (0, 0)` for *every* key count — and
  construction then panics inside `insert_item` (`.min().unwrap()` of an
  empty candidate list) for every nonempty map.  The fallible builder
  `new?` below embeds that construction panic as `none`. -/

structure SpectralBloomFilter where
  n_hash_functions : Nat
  sbf : List Nat
  width : Nat
deriving Repr, DecidableEq

/-- `SpectralBloomFilter::hash_indices`: the `k` candidate slots of a key,
`hash(key, seed = i) % sbf_size` for `i ∈ [0, k)`.  (Rust `%` on `u32`
panics when `sbf_size = 0`; every use below has `sbf_size ≥ 1` except the
empty-map case, where `k = 0` and no `%` is evaluated at all.) -/
def hash_indices (key : List Nat) (n_hash_functions sbf_size : Nat) : List Nat :=
  (List.range n_hash_functions).map (fun i => murmurhash3_x86_32 key i % sbf_size)

/-- The closure `insert_item` of `SpectralBloomFilter::new`: read the minimum
counter over the key's candidate slots, add the key's frequency —
`checked_add` with the `None` (overflow) branch mapped to `2^width - 1`,
then clamped at `2^width - 1`; since `2^width - 1 ≤ 2^31 - 1 < 2^32` the two
branches together equal `min (minimum + frequency) (2^width - 1)` over `Nat`
— and write the new value into every candidate slot holding a value ≤ it.
Rust panics (`Option::unwrap` on `min()` of an empty iterator) when the
index list is empty, i.e. when `n_hash_functions = 0`; that branch (`none`
below) is unreachable whenever `n_hash_functions ≥ 1`, and for the empty
frequency map `insert_item` is never invoked. -/
def insertItem (width n_hash_functions sbf_size : Nat) (sbf : List Nat)
    (key : List Nat) (frequency : Nat) : List Nat :=
  let indices := hash_indices key n_hash_functions sbf_size
  match (indices.map (fun i => sbf.getD i 0)).min? with
  | none => sbf
  | some minimum_value =>
    let minimum_value := min (minimum_value + frequency) (2 ^ width - 1)
    indices.foldl
      (fun s i => if s.getD i 0 ≤ minimum_value then s.set i minimum_value else s)
      sbf

/-- `SpectralBloomFilter::new`, with the `(sbf_size, n_hash_functions)` pair
computed by the floating-point `optimal_size` taken as parameters (see the
section comment): create a zero-filled slot array of size `sbf_size` and
fold `insert_item` over the `(key, frequency)` pairs of the counter in
iteration order. -/
def SpectralBloomFilter.new (counter : List (List Nat × Nat))
    (sbf_size n_hash_functions width : Nat) : SpectralBloomFilter :=
  { n_hash_functions := n_hash_functions
    sbf := counter.foldl
      (fun s kf => insertItem width n_hash_functions sbf_size s kf.1 kf.2)
      (List.replicate sbf_size 0)
    width := width }

/-- `SpectralBloomFilter::get_frequency`: minimum counter value over the
key's candidate slots, the modulus being the current `sbf.len()`.  Rust
calls `.min().unwrap()`, which panics when `n_hash_functions = 0`; the
panic is embedded as `none` (`List.min?` of the empty list). -/
def getFrequency (filter : SpectralBloomFilter) (key : List Nat) : Option Nat :=
  ((hash_indices key filter.n_hash_functions filter.sbf.length).map
    (fun i => filter.sbf.getD i 0)).min?

/-- `insert_item` with its panic surfaced: the same closure as `insertItem`,
but Rust's `.min().unwrap()` on an empty candidate list (the case
`n_hash_functions = 0`, which `optimal_size` produces at rate `p = 1`) is
embedded as `none` instead of being left unreachable. -/
def insertItem? (width n_hash_functions sbf_size : Nat) (sbf : List Nat)
    (key : List Nat) (frequency : Nat) : Option (List Nat) :=
  let indices := hash_indices key n_hash_functions sbf_size
  match (indices.map (fun i => sbf.getD i 0)).min? with
  | none => none
  | some minimum_value =>
    let minimum_value := min (minimum_value + frequency) (2 ^ width - 1)
    some (indices.foldl
      (fun s i => if s.getD i 0 ≤ minimum_value then s.set i minimum_value else s)
      sbf)

/-- `SpectralBloomFilter::new` as a fallible computation: the fold of
`insert_item` over the counter with the construction panic embedded as
`none` (`insertItem?`).  For `n_hash_functions ≥ 1` it agrees with the total
builder `new` (`new?_eq_some` below); with `n_hash_functions = 0` — the
sizing at `p = 1` — it is `none` for every nonempty counter: Rust panics
while inserting the first pair. -/
def SpectralBloomFilter.new? (counter : List (List Nat × Nat))
    (sbf_size n_hash_functions width : Nat) : Option SpectralBloomFilter :=
  (counter.foldlM
      (fun s kf => insertItem? width n_hash_functions sbf_size s kf.1 kf.2)
      (List.replicate sbf_size 0)).map
    (fun sbf =>
      { n_hash_functions := n_hash_functions
        sbf := sbf
        width := width })

/-! ## Base-2^15 codec (`src/compressor/base2p15.rs`)

Rust `encode` reads its input through `as_bytes()`; the codec's input is
specified only over the characters `'0'`/`'1'`, where the UTF-8 bytes
coincide with the characters, so both sides are embedded over `List Char`. -/

/-- Value of one bit character (Rust: `*x as u16 - 48`): `'0' ↦ 0`,
`'1' ↦ 1`. -/
def bitVal (c : Char) : Nat := c.toNat - 48

/-- Rust `fold(0, |x, y| (x << 1) | y)`: a chunk of bit characters read as a
big-endian binary number. -/
def bitsToNat (l : List Char) : Nat := l.foldl (fun x c => (x <<< 1) ||| bitVal c) 0

/-- Minimal binary rendering of `v`, most significant digit first
(`0 ↦ "0"`), with explicit fuel so that it is structural and computes by
kernel reduction. -/
def toBinCore : Nat → Nat → List Char → List Char
  | 0, _, acc => acc
  | fuel + 1, v, acc =>
    let d := if v % 2 = 1 then '1' else '0'
    if v < 2 then d :: acc else toBinCore fuel (v / 2) (d :: acc)

/-- Minimal binary rendering of `v` (`Rust {:b}` formatting). -/
def toBinMin (v : Nat) : List Char := toBinCore (v + 1) v []

/-- Rust `format!("{:0w$b}", v)`: minimal binary, left-padded with `'0'` to
width `w` (and longer than `w` when `v ≥ 2^w`). -/
def binPad (w v : Nat) : List Char :=
  List.replicate (w - (toBinMin v).length) '0' ++ toBinMin v

/-- `SpectralBloomFilter::as_bit_string`: every slot rendered with
`format!("{:0width$b}", x)`, concatenated left to right (the fold with
`format!("{}{}", x, y)` starting from the empty string). -/
def asBitString (filter : SpectralBloomFilter) : List Char :=
  (filter.sbf.map (fun x => binPad filter.width x)).flatten

/-- Rust `chunks_exact(15)`: the consecutive full 15-character chunks, a
final shorter remainder dropped; fueled by the list length so that it is
structural. -/
def chunksCore : Nat → List Char → List (List Char)
  | 0, _ => []
  | fuel + 1, l => if 15 ≤ l.length then l.take 15 :: chunksCore fuel (l.drop 15) else []

/-- `bit_string.as_bytes().chunks_exact(15)` over characters. -/
def chunks15 (l : List Char) : List (List Char) := chunksCore l.length l

/-- Rust `format!("{:x}", n).chars().next().unwrap()` for a number `n ≤ 15`:
the single lower-case hex digit. -/
def hexDigitChar (n : Nat) : Char :=
  if n < 10 then Char.ofNat (48 + n) else Char.ofNat (87 + n)

/-- `encode` from `src/compressor/base2p15.rs`: right-pad with `'0'` bits to
a multiple of 15, read each 15-bit chunk as a number, add the offset 161,
and prepend the header hex digit carrying the padding length.

Rust materializes the code units as `u16` and maps them through
`decode_utf16(...).unwrap()`: every unit produced here is an ASCII hex digit
(header) or, for bit-character input, a value in `[161, 32928]`; none is in
the surrogate band `[0xD800, 0xDFFF]`, so `decode_utf16` yields exactly the
character of each code unit, embedded as `Char.ofNat`. -/
def encode (bit_string : List Char) : List Char :=
  let n_padded_bits := (15 - bit_string.length % 15) % 15
  let offset := 161
  let padded := bit_string ++ List.replicate n_padded_bits '0'
  let data := (chunks15 padded).map (fun chunk => Char.ofNat (bitsToNat chunk + offset))
  hexDigitChar n_padded_bits :: data

/-- Rust `char::to_digit(16)`: hex digit value of `'0'..'9'`, `'a'..'f'`,
`'A'..'F'`, else `none`. -/
def toDigit16 (c : Char) : Option Nat :=
  if 48 ≤ c.toNat ∧ c.toNat ≤ 57 then some (c.toNat - 48)
  else if 97 ≤ c.toNat ∧ c.toNat ≤ 102 then some (c.toNat - 87)
  else if 65 ≤ c.toNat ∧ c.toNat ≤ 70 then some (c.toNat - 55)
  else none

/-- `decode` from `src/compressor/base2p15.rs`: read the header character as
a hex digit (the padding length), render each remaining character minus the
offset `0xa1` with `format!("{:015b}", ·)`, concatenate, and pop the padding
bits (`take (length - n)`).

Rust panics — embedded as `none` — on an empty input
(`chars().nth(0).unwrap()`), on a non-hex-digit header
(`to_digit(16).unwrap()`), and, in debug builds, on a data character below
the offset (`c as u32 - offset` underflows).  A data character at or above
`161 + 2^15` is accepted and simply renders to more than 15 bits. -/
def decode (base2p15_encoded : List Char) : Option (List Char) :=
  match base2p15_encoded with
  | [] => none
  | padding_char :: rest =>
    match toDigit16 padding_char with
    | none => none
    | some n_padded_bits =>
      if rest.all (fun c => 161 ≤ c.toNat) then
        let decoded := (rest.map (fun c => binPad 15 (c.toNat - 161))).flatten
        some (decoded.take (decoded.length - n_padded_bits))
      else none

/-! ## Lemmas about the binary rendering -/

theorem two_mul_lor_one (x : Nat) : (2 * x) ||| 1 = 2 * x + 1 := by
  apply Nat.eq_of_testBit_eq
  intro i
  cases i with
  | zero =>
    simp only [Nat.testBit_lor, Nat.testBit_zero]
    have h1 : (2 * x) % 2 = 0 := by omega
    have h2 : (2 * x + 1) % 2 = 1 := by omega
    simp [h1, h2]
  | succ i =>
    have h2 : (2 * x) / 2 = x := by omega
    have h3 : (2 * x + 1) / 2 = x := by omega
    rw [Nat.testBit_lor]
    simp [Nat.testBit_add_one, h2, h3]

/-- The codec's fold step `(x << 1) | y` on a bit value is plain
`2 * x + y`. -/
theorem bitsToNat_step (x : Nat) (c : Char) (hc : c = '0' ∨ c = '1') :
    (x <<< 1) ||| bitVal c = 2 * x + bitVal c := by
  rcases hc with h | h <;> subst h
  · show (x <<< 1) ||| 0 = 2 * x + 0
    simp [Nat.shiftLeft_eq, Nat.mul_comm]
  · show (x <<< 1) ||| 1 = 2 * x + 1
    rw [Nat.shiftLeft_eq, Nat.pow_one, Nat.mul_comm]
    exact two_mul_lor_one x

theorem foldl_bits_shift (l : List Char) (hl : ∀ c ∈ l, c = '0' ∨ c = '1') :
    ∀ a : Nat, l.foldl (fun x c => (x <<< 1) ||| bitVal c) a
      = a * 2 ^ l.length + bitsToNat l := by
  induction l with
  | nil => intro a; simp [bitsToNat]
  | cons c l ih =>
    intro a
    have hc := hl c (by simp)
    have hl' : ∀ x ∈ l, x = '0' ∨ x = '1' := fun x hx => hl x (by simp [hx])
    simp only [List.foldl_cons, bitsToNat]
    rw [bitsToNat_step a c hc, ih hl' (2 * a + bitVal c),
      bitsToNat_step 0 c hc, ih hl' (2 * 0 + bitVal c)]
    simp only [bitsToNat, List.length_cons, Nat.pow_succ]
    ring

theorem bitsToNat_cons (c : Char) (l : List Char) (hc : c = '0' ∨ c = '1')
    (hl : ∀ x ∈ l, x = '0' ∨ x = '1') :
    bitsToNat (c :: l) = bitVal c * 2 ^ l.length + bitsToNat l := by
  simp only [bitsToNat, List.foldl_cons]
  rw [bitsToNat_step 0 c hc, foldl_bits_shift l hl]
  simp only [bitsToNat]
  ring

theorem bitVal_le_one (c : Char) (hc : c = '0' ∨ c = '1') : bitVal c ≤ 1 := by
  rcases hc with h | h <;> subst h <;> decide

theorem bitsToNat_lt (l : List Char) (hl : ∀ c ∈ l, c = '0' ∨ c = '1') :
    bitsToNat l < 2 ^ l.length := by
  induction l with
  | nil => decide
  | cons c l ih =>
    have hc := hl c (by simp)
    have hl' : ∀ x ∈ l, x = '0' ∨ x = '1' := fun x hx => hl x (by simp [hx])
    have h1 := ih hl'
    have h2 := bitVal_le_one c hc
    rw [bitsToNat_cons c l hc hl']
    have : bitVal c * 2 ^ l.length ≤ 2 ^ l.length := by
      calc bitVal c * 2 ^ l.length ≤ 1 * 2 ^ l.length :=
            Nat.mul_le_mul_right _ h2
        _ = 2 ^ l.length := Nat.one_mul _
    simp only [List.length_cons, Nat.pow_succ]
    omega

theorem bitsToNat_append_singleton (l : List Char) (c : Char)
    (hc : c = '0' ∨ c = '1') (hl : ∀ x ∈ l, x = '0' ∨ x = '1') :
    bitsToNat (l ++ [c]) = 2 * bitsToNat l + bitVal c := by
  simp only [bitsToNat, List.foldl_append, List.foldl_cons, List.foldl_nil]
  exact bitsToNat_step _ c hc

theorem bitsToNat_replicate_zero_append (n : Nat) (l : List Char) :
    bitsToNat (List.replicate n '0' ++ l) = bitsToNat l := by
  induction n with
  | zero => simp
  | succ n ih =>
    simp only [List.replicate_succ, List.cons_append, bitsToNat, List.foldl_cons]
    have h0 : ((0 : Nat) <<< 1) ||| bitVal '0' = 0 := rfl
    rw [h0]
    exact ih

theorem toBinCore_eq_append :
    ∀ (v fuel : Nat) (acc : List Char), v < fuel →
      toBinCore fuel v acc = toBinMin v ++ acc := by
  intro v
  induction v using Nat.strong_induction_on with
  | _ v ih =>
    intro fuel acc h
    obtain ⟨f, rfl⟩ : ∃ f, fuel = f + 1 := ⟨fuel - 1, by omega⟩
    by_cases hv : v < 2
    · interval_cases v <;> simp [toBinCore, toBinMin]
    · have hstep : toBinCore (f + 1) v acc
          = toBinCore f (v / 2) ((if v % 2 = 1 then '1' else '0') :: acc) := by
        simp only [toBinCore]
        rw [if_neg hv]
      have hmin : toBinMin v
          = toBinMin (v / 2) ++ [if v % 2 = 1 then '1' else '0'] := by
        show toBinCore (v + 1) v [] = _
        simp only [toBinCore]
        rw [if_neg hv]
        exact ih (v / 2) (by omega) v _ (by omega)
      rw [hstep, ih (v / 2) (by omega) f _ (by omega), hmin, List.append_assoc]
      rfl

theorem toBinMin_two_le (v : Nat) (hv : 2 ≤ v) :
    toBinMin v = toBinMin (v / 2) ++ [if v % 2 = 1 then '1' else '0'] := by
  show toBinCore (v + 1) v [] = _
  simp only [toBinCore]
  rw [if_neg (by omega)]
  exact toBinCore_eq_append (v / 2) v _ (by omega)

theorem toBinMin_isBit (v : Nat) : ∀ c ∈ toBinMin v, c = '0' ∨ c = '1' := by
  induction v using Nat.strong_induction_on with
  | _ v ih =>
    by_cases hv : v < 2
    · interval_cases v <;> simp [toBinMin, toBinCore]
    · rw [toBinMin_two_le v (by omega)]
      intro c hc
      rcases List.mem_append.mp hc with h | h
      · exact ih (v / 2) (by omega) c h
      · simp only [List.mem_singleton] at h
        subst h
        by_cases hm : v % 2 = 1 <;> simp [hm]

theorem bitsToNat_toBinMin (v : Nat) : bitsToNat (toBinMin v) = v := by
  induction v using Nat.strong_induction_on with
  | _ v ih =>
    by_cases hv : v < 2
    · interval_cases v <;> decide
    · rw [toBinMin_two_le v (by omega)]
      rw [bitsToNat_append_singleton _ _ (by by_cases hm : v % 2 = 1 <;> simp [hm])
        (toBinMin_isBit (v / 2))]
      rw [ih (v / 2) (by omega)]
      have : bitVal (if v % 2 = 1 then '1' else '0') = v % 2 := by
        by_cases hm : v % 2 = 1
        · simp [hm, bitVal]
        · have : v % 2 = 0 := by omega
          simp [this, hm, bitVal]
      rw [this]
      omega

theorem toBinMin_length_le (v w : Nat) (hw : 0 < w) (hv : v < 2 ^ w) :
    (toBinMin v).length ≤ w := by
  induction v using Nat.strong_induction_on generalizing w with
  | _ v ih =>
    by_cases h2 : v < 2
    · have : (toBinMin v).length = 1 := by interval_cases v <;> decide
      omega
    · rw [toBinMin_two_le v (by omega)]
      have hw2 : 1 < w := by
        by_contra hcon
        have : w = 1 := by omega
        subst this
        omega
      have : v / 2 < 2 ^ (w - 1) := by
        have : 2 ^ w = 2 ^ (w - 1) * 2 := by
          rw [← Nat.pow_succ]
          congr 1
          omega
        omega
      have hlen := ih (v / 2) (by omega) (w - 1) (by omega) this
      simp only [List.length_append, List.length_singleton]
      omega

theorem binPad_isBit (w v : Nat) : ∀ c ∈ binPad w v, c = '0' ∨ c = '1' := by
  intro c hc
  rcases List.mem_append.mp hc with h | h
  · left; exact List.eq_of_mem_replicate h
  · exact toBinMin_isBit v c h

theorem binPad_length (w v : Nat) (hw : 0 < w) (hv : v < 2 ^ w) :
    (binPad w v).length = w := by
  have := toBinMin_length_le v w hw hv
  simp only [binPad, List.length_append, List.length_replicate]
  omega

theorem bitsToNat_binPad (w v : Nat) : bitsToNat (binPad w v) = v := by
  unfold binPad
  rw [bitsToNat_replicate_zero_append, bitsToNat_toBinMin]

theorem bitVal_inj (c c' : Char) (hc : c = '0' ∨ c = '1') (hc' : c' = '0' ∨ c' = '1')
    (h : bitVal c = bitVal c') : c = c' := by
  rcases hc with h1 | h1 <;> rcases hc' with h2 | h2 <;> subst h1 <;> subst h2 <;>
    first
    | rfl
    | exact absurd h (by decide)

theorem bitsToNat_inj (l₁ : List Char) : ∀ (l₂ : List Char),
    (∀ c ∈ l₁, c = '0' ∨ c = '1') → (∀ c ∈ l₂, c = '0' ∨ c = '1') →
    l₁.length = l₂.length → bitsToNat l₁ = bitsToNat l₂ → l₁ = l₂ := by
  induction l₁ using List.reverseRecOn with
  | nil =>
    intro l₂ _ _ hlen _
    symm
    exact List.eq_nil_of_length_eq_zero hlen.symm
  | append_singleton l c ih =>
    intro l₂ hb1 hb2 hlen hval
    rcases List.eq_nil_or_concat l₂ with rfl | ⟨l', c', rfl⟩
    · simp at hlen
    · simp only [List.concat_eq_append] at hb2 hlen hval ⊢
      have hc : c = '0' ∨ c = '1' := hb1 c (by simp)
      have hc' : c' = '0' ∨ c' = '1' := hb2 c' (by simp)
      have hbl : ∀ x ∈ l, x = '0' ∨ x = '1' := fun x hx => hb1 x (by simp [hx])
      have hbl' : ∀ x ∈ l', x = '0' ∨ x = '1' := fun x hx => hb2 x (by simp [hx])
      rw [bitsToNat_append_singleton l c hc hbl,
        bitsToNat_append_singleton l' c' hc' hbl'] at hval
      have h1 := bitVal_le_one c hc
      have h2 := bitVal_le_one c' hc'
      have hv : bitVal c = bitVal c' ∧ bitsToNat l = bitsToNat l' := by omega
      have hll : l.length = l'.length := by
        simp only [List.length_append, List.length_singleton] at hlen
        omega
      rw [ih l' hbl hbl' hll hv.2, bitVal_inj c c' hc hc' hv.1]

/-- For a 15-character bit string, `{:015b}` of its value is the string
itself. -/
theorem binPad_bitsToNat_eq (l : List Char) (w : Nat) (hw : 0 < w)
    (hbin : ∀ c ∈ l, c = '0' ∨ c = '1') (hlen : l.length = w) :
    binPad w (bitsToNat l) = l := by
  have hlt : bitsToNat l < 2 ^ w := hlen ▸ bitsToNat_lt l hbin
  exact bitsToNat_inj _ l (binPad_isBit _ _) hbin
    (by rw [binPad_length w _ hw hlt, hlen]) (by rw [bitsToNat_binPad])

/-! ## Lemmas about chunking -/

theorem chunksCore_fuel : ∀ (fuel₁ : Nat) (l : List Char) (fuel₂ : Nat),
    l.length ≤ fuel₁ → l.length ≤ fuel₂ →
    chunksCore fuel₁ l = chunksCore fuel₂ l := by
  intro fuel₁
  induction fuel₁ with
  | zero =>
    intro l fuel₂ h1 _
    have : l = [] := List.eq_nil_of_length_eq_zero (by omega)
    subst this
    cases fuel₂ with
    | zero => rfl
    | succ f => simp [chunksCore]
  | succ f ih =>
    intro l fuel₂ h1 h2
    cases fuel₂ with
    | zero =>
      have : l = [] := List.eq_nil_of_length_eq_zero (by omega)
      subst this
      simp [chunksCore]
    | succ f₂ =>
      simp only [chunksCore]
      by_cases h15 : 15 ≤ l.length
      · rw [if_pos h15, if_pos h15]
        congr 1
        exact ih (l.drop 15) f₂ (by simp [List.length_drop]; omega)
          (by simp [List.length_drop]; omega)
      · rw [if_neg h15, if_neg h15]

theorem chunks15_eq_nil (l : List Char) (h : l.length < 15) : chunks15 l = [] := by
  unfold chunks15
  cases hl : l.length with
  | zero =>
    have : l = [] := List.eq_nil_of_length_eq_zero hl
    subst this
    rfl
  | succ n =>
    simp only [chunksCore]
    rw [if_neg (by omega)]

theorem chunks15_cons15 (l : List Char) (h : 15 ≤ l.length) :
    chunks15 l = l.take 15 :: chunks15 (l.drop 15) := by
  unfold chunks15
  obtain ⟨f, hf⟩ : ∃ f, l.length = f + 1 := ⟨l.length - 1, by omega⟩
  rw [hf]
  simp only [chunksCore]
  rw [if_pos h]
  congr 1
  exact chunksCore_fuel f (l.drop 15) (l.drop 15).length
    (by simp [List.length_drop]; omega) (by simp)

theorem chunks15_mem : ∀ (n : Nat) (l ch : List Char), l.length = n →
    ch ∈ chunks15 l → ch.length = 15 ∧ ∀ c ∈ ch, c ∈ l := by
  intro n
  induction n using Nat.strong_induction_on with
  | _ n ih =>
    intro l ch hn hch
    by_cases h15 : 15 ≤ l.length
    · rw [chunks15_cons15 l h15] at hch
      rcases List.mem_cons.mp hch with rfl | hmem
      · exact ⟨by simp [List.length_take]; omega,
          fun c hc => List.take_subset 15 l hc⟩
      · have := ih (l.drop 15).length (by simp [List.length_drop]; omega)
          (l.drop 15) ch rfl hmem
        exact ⟨this.1, fun c hc => List.drop_subset 15 l (this.2 c hc)⟩
    · rw [chunks15_eq_nil l (by omega)] at hch
      simp at hch

/-- Decoding the encoded chunks of a padded bit string recovers it. -/
theorem chunks15_decode_flatten : ∀ (n : Nat) (l : List Char), l.length = n →
    l.length % 15 = 0 → (∀ c ∈ l, c = '0' ∨ c = '1') →
    ((chunks15 l).map (fun ch => binPad 15 (bitsToNat ch))).flatten = l := by
  intro n
  induction n using Nat.strong_induction_on with
  | _ n ih =>
    intro l hn hmod hbin
    by_cases h15 : 15 ≤ l.length
    · rw [chunks15_cons15 l h15]
      simp only [List.map_cons, List.flatten_cons]
      have htake_len : (l.take 15).length = 15 := by simp [List.length_take]; omega
      have htake_bin : ∀ c ∈ l.take 15, c = '0' ∨ c = '1' :=
        fun c hc => hbin c (List.take_subset 15 l hc)
      rw [binPad_bitsToNat_eq _ 15 (by omega) htake_bin htake_len]
      have hdrop := ih (l.drop 15).length (by simp [List.length_drop]; omega)
        (l.drop 15) rfl (by simp [List.length_drop]; omega)
        (fun c hc => hbin c (List.drop_subset 15 l hc))
      rw [hdrop, List.take_append_drop]
    · have hl0 : l.length = 0 := by omega
      have : l = [] := List.eq_nil_of_length_eq_zero hl0
      subst this
      rfl

/-! ## Lemmas about characters -/

theorem Char_toNat_ofNat {n : Nat} (h : n < 55296) : (Char.ofNat n).toNat = n := by
  have hv : n.isValidChar := Or.inl h
  rw [Char.ofNat, dif_pos hv]
  rfl

theorem toDigit16_hexDigitChar (n : Nat) (h : n ≤ 14) :
    toDigit16 (hexDigitChar n) = some n := by
  interval_cases n <;> decide

theorem hexDigitChar_toNat_le (n : Nat) (h : n ≤ 14) :
    (hexDigitChar n).toNat ≤ 101 := by
  unfold hexDigitChar
  by_cases h10 : n < 10
  · rw [if_pos h10, Char_toNat_ofNat (by omega)]
    omega
  · rw [if_neg h10, Char_toNat_ofNat (by omega)]
    omega

/-- Everything known about one encoded data chunk: binary, 15 characters,
value below `2^15`. -/
theorem chunks15_facts (l ch : List Char) (hbin : ∀ c ∈ l, c = '0' ∨ c = '1')
    (hch : ch ∈ chunks15 l) :
    (∀ c ∈ ch, c = '0' ∨ c = '1') ∧ ch.length = 15 ∧ bitsToNat ch < 32768 := by
  have hm := chunks15_mem l.length l ch rfl hch
  have hb : ∀ c ∈ ch, c = '0' ∨ c = '1' := fun c hc => hbin c (hm.2 c hc)
  have hlt := bitsToNat_lt ch hb
  rw [hm.1] at hlt
  exact ⟨hb, hm.1, hlt⟩

theorem decode_encode (s : List Char) (hs : ∀ c ∈ s, c = '0' ∨ c = '1') :
    decode (encode s) = some s := by
  have hnpad14 : (15 - s.length % 15) % 15 ≤ 14 := by omega
  set npad := (15 - s.length % 15) % 15 with hnpad
  set padded := s ++ List.replicate npad '0' with hpadded
  have hpad_bin : ∀ c ∈ padded, c = '0' ∨ c = '1' := by
    intro c hc
    rcases List.mem_append.mp hc with h | h
    · exact hs c h
    · left; exact List.eq_of_mem_replicate h
  have hpad_len : padded.length = s.length + npad := by
    simp [hpadded]
  have hpad_mod : padded.length % 15 = 0 := by
    rw [hpad_len, hnpad]
    omega
  have hshow : encode s
      = hexDigitChar npad :: (chunks15 padded).map (fun ch => Char.ofNat (bitsToNat ch + 161)) :=
    rfl
  rw [hshow]
  show (match toDigit16 (hexDigitChar npad) with
    | none => none
    | some n_padded_bits =>
      if ((chunks15 padded).map (fun ch => Char.ofNat (bitsToNat ch + 161))).all
          (fun c => 161 ≤ c.toNat) then
        let decoded := (((chunks15 padded).map (fun ch => Char.ofNat (bitsToNat ch + 161))).map
          (fun c => binPad 15 (c.toNat - 161))).flatten
        some (decoded.take (decoded.length - n_padded_bits))
      else none) = some s
  rw [toDigit16_hexDigitChar npad hnpad14]
  show (if ((chunks15 padded).map (fun ch => Char.ofNat (bitsToNat ch + 161))).all
        (fun c => 161 ≤ c.toNat) then
      some (((((chunks15 padded).map (fun ch => Char.ofNat (bitsToNat ch + 161))).map
          (fun c => binPad 15 (c.toNat - 161))).flatten).take
        (((((chunks15 padded).map (fun ch => Char.ofNat (bitsToNat ch + 161))).map
          (fun c => binPad 15 (c.toNat - 161))).flatten).length - npad))
    else none) = some s
  have htoNat : ∀ ch ∈ chunks15 padded,
      (Char.ofNat (bitsToNat ch + 161)).toNat = bitsToNat ch + 161 := by
    intro ch hch
    have := (chunks15_facts padded ch hpad_bin hch).2.2
    exact Char_toNat_ofNat (by omega)
  have hall : (((chunks15 padded).map (fun ch => Char.ofNat (bitsToNat ch + 161))).all
      (fun c => 161 ≤ c.toNat)) = true := by
    rw [List.all_eq_true]
    intro x hx
    rcases List.mem_map.mp hx with ⟨ch, hch, rfl⟩
    rw [htoNat ch hch]
    simp
  rw [if_pos hall]
  have hmaps : (((chunks15 padded).map (fun ch => Char.ofNat (bitsToNat ch + 161))).map
        (fun c => binPad 15 (c.toNat - 161))).flatten = padded := by
    rw [List.map_map]
    have heq : (chunks15 padded).map ((fun c => binPad 15 (c.toNat - 161)) ∘
          (fun ch => Char.ofNat (bitsToNat ch + 161)))
        = (chunks15 padded).map (fun ch => binPad 15 (bitsToNat ch)) := by
      apply List.map_congr_left
      intro ch hch
      simp only [Function.comp]
      rw [htoNat ch hch, Nat.add_sub_cancel]
    rw [heq]
    exact chunks15_decode_flatten padded.length padded rfl hpad_mod hpad_bin
  rw [hmaps]
  have hlen2 : padded.length - npad = s.length := by omega
  rw [hlen2, hpadded, List.take_left' rfl]

/-! ## Claim theorems: codec -/

/-- C2: for every string over `{'0','1'}` (the empty string included),
`decode (encode s) = s`, and `encode` of the empty string is the single
header character `'0'` with zero data characters. -/
theorem codec_round_trip (s : List Char) (hs : ∀ c ∈ s, c = '0' ∨ c = '1') :
    decode (encode s) = some s ∧ encode ([] : List Char) = ['0'] :=
  ⟨decode_encode s hs, rfl⟩

/-- Witness for C2 at the concrete bit string `"101"`. -/
theorem codec_round_trip_witness :
    decode (encode ['1', '0', '1']) = some ['1', '0', '1'] ∧
      encode ([] : List Char) = ['0'] :=
  codec_round_trip ['1', '0', '1'] (by decide)

/-- C10: every character of `encode s` (for `s` over `{'0','1'}`) has a code
point outside the UTF-16 surrogate band `[0xD800, 0xDFFF]`, and every data
character (the tail after the header) has a code point in
`[161, 161 + 32768)`. -/
theorem codec_surrogate_safe (s : List Char) (hs : ∀ c ∈ s, c = '0' ∨ c = '1') :
    (∀ c ∈ encode s, c.toNat < 0xD800 ∨ 0xDFFF < c.toNat) ∧
      (∀ c ∈ (encode s).tail, 161 ≤ c.toNat ∧ c.toNat < 161 + 32768) := by
  have hnpad14 : (15 - s.length % 15) % 15 ≤ 14 := by omega
  set npad := (15 - s.length % 15) % 15 with hnpad
  set padded := s ++ List.replicate npad '0' with hpadded
  have hpad_bin : ∀ c ∈ padded, c = '0' ∨ c = '1' := by
    intro c hc
    rcases List.mem_append.mp hc with h | h
    · exact hs c h
    · left; exact List.eq_of_mem_replicate h
  have hshow : encode s
      = hexDigitChar npad :: (chunks15 padded).map (fun ch => Char.ofNat (bitsToNat ch + 161)) :=
    rfl
  have hdata : ∀ c ∈ (chunks15 padded).map (fun ch => Char.ofNat (bitsToNat ch + 161)),
      161 ≤ c.toNat ∧ c.toNat < 161 + 32768 := by
    intro c hc
    rcases List.mem_map.mp hc with ⟨ch, hch, rfl⟩
    have hlt := (chunks15_facts padded ch hpad_bin hch).2.2
    rw [Char_toNat_ofNat (by omega)]
    omega
  rw [hshow]
  constructor
  · intro c hc
    rcases List.mem_cons.mp hc with rfl | hmem
    · left
      have := hexDigitChar_toNat_le npad hnpad14
      omega
    · left
      have := hdata c hmem
      omega
  · intro c hc
    exact hdata c hc

/-- Witness for C10 at the concrete bit string `"1"`. -/
theorem codec_surrogate_safe_witness :
    (∀ c ∈ encode ['1'], c.toNat < 0xD800 ∨ 0xDFFF < c.toNat) ∧
      (∀ c ∈ (encode ['1']).tail, 161 ≤ c.toNat ∧ c.toNat < 161 + 32768) :=
  codec_surrogate_safe ['1'] (by decide)

/-- C5 counterexample: the claim says `decode` fails on every input holding
a character outside the valid data range `[161, 161 + 32768)`; but on the
input `"0"` followed by the character with code point `57344 = 0xE000`
(outside that range and not a surrogate) the code succeeds, returning the
16-bit group of `57344 - 161`. -/
theorem decode_out_of_range_succeeds :
    decode ['0', Char.ofNat 57344] =
      some ['1', '1', '0', '1', '1', '1', '1', '1', '0', '1', '0', '1', '1', '1', '1', '1'] := by
  decide

/-- C5 as amended: `decode` has no recoverable error result (its Rust type
is a plain `String`); it panics — embedded as `none` — on an input shorter
than one character, on a non-hex-digit header, and (in debug builds, via
`u32` subtraction underflow) on a data character below the offset 161, while
a data character at or above `161 + 2^15` is accepted and renders to an
overlong group of more than 15 bits. -/
theorem decode_failure_modes :
    decode ([] : List Char) = none ∧
      decode ['z'] = none ∧
      decode ['0', ' '] = none ∧
      decode ['0', Char.ofNat 40000] =
        some ['1', '0', '0', '1', '1', '0', '1', '1', '1', '0', '0', '1', '1', '1', '1', '1'] := by
  refine ⟨rfl, by decide, by decide, by decide⟩

/-! ## Lemmas about the Spectral Bloom Filter -/

theorem getD_set_self (s : List Nat) (i v : Nat) (h : i < s.length) :
    (s.set i v).getD i 0 = v := by
  simp [List.getD_eq_getElem?_getD, List.getElem?_set_self h]

theorem getD_set_ne (s : List Nat) (i j v : Nat) (h : i ≠ j) :
    (s.set i v).getD j 0 = s.getD j 0 := by
  simp [List.getD_eq_getElem?_getD, List.getElem?_set_ne h]

/-- Value of slot `j` after the write loop of `insert_item` (raise every
candidate slot holding a value ≤ the new value). -/
theorem getD_raise (v : Nat) : ∀ (idx s : List Nat) (j : Nat),
    (idx.foldl (fun s i => if s.getD i 0 ≤ v then s.set i v else s) s).getD j 0
      = if j ∈ idx ∧ s.getD j 0 ≤ v ∧ j < s.length then v else s.getD j 0 := by
  intro idx
  induction idx with
  | nil =>
    intro s j
    simp
  | cons i is ih =>
    intro s j
    simp only [List.foldl_cons, List.mem_cons]
    by_cases hle : s.getD i 0 ≤ v
    · rw [if_pos hle, ih]
      by_cases hij : i = j
      · subst hij
        by_cases hlen : i < s.length
        · rw [getD_set_self s i v hlen, List.length_set, ite_self,
            if_pos ⟨Or.inl rfl, hle, hlen⟩]
        · rw [List.set_eq_of_length_le (by omega)]
          rw [if_neg (fun h => hlen h.2.2), if_neg (fun h => hlen h.2.2)]
      · rw [getD_set_ne s i j v hij, List.length_set]
        by_cases hj : j ∈ is ∧ s.getD j 0 ≤ v ∧ j < s.length
        · rw [if_pos hj, if_pos ⟨Or.inr hj.1, hj.2⟩]
        · rw [if_neg hj,
            if_neg (fun h => hj ⟨h.1.resolve_left (fun he => hij he.symm), h.2⟩)]
    · rw [if_neg hle, ih]
      by_cases hij : i = j
      · subst hij
        rw [if_neg (fun h => hle h.2.1), if_neg (fun h => hle h.2.1)]
      · by_cases hj : j ∈ is ∧ s.getD j 0 ≤ v ∧ j < s.length
        · rw [if_pos hj, if_pos ⟨Or.inr hj.1, hj.2⟩]
        · rw [if_neg hj,
            if_neg (fun h => hj ⟨h.1.resolve_left (fun he => hij he.symm), h.2⟩)]

theorem length_raise (v : Nat) (idx : List Nat) : ∀ s : List Nat,
    (idx.foldl (fun s i => if s.getD i 0 ≤ v then s.set i v else s) s).length
      = s.length := by
  induction idx with
  | nil => intro s; rfl
  | cons i is ih =>
    intro s
    simp only [List.foldl_cons]
    by_cases hle : s.getD i 0 ≤ v
    · rw [if_pos hle, ih, List.length_set]
    · rw [if_neg hle, ih]

theorem mem_raise (v : Nat) (idx : List Nat) : ∀ (s : List Nat) (x : Nat),
    x ∈ idx.foldl (fun s i => if s.getD i 0 ≤ v then s.set i v else s) s →
    x ∈ s ∨ x = v := by
  induction idx with
  | nil => intro s x hx; exact Or.inl hx
  | cons i is ih =>
    intro s x hx
    simp only [List.foldl_cons] at hx
    by_cases hle : s.getD i 0 ≤ v
    · rw [if_pos hle] at hx
      rcases ih (s.set i v) x hx with h | h
      · exact List.mem_or_eq_of_mem_set h
      · exact Or.inr h
    · rw [if_neg hle] at hx
      exact ih s x hx

theorem nat_min_eq_or (x y : Nat) : min x y = x ∨ min x y = y := by
  rw [Nat.min_def]
  split_ifs <;> simp

theorem length_insertItem (width k m : Nat) (s key : List Nat) (f : Nat) :
    (insertItem width k m s key f).length = s.length := by
  simp only [insertItem]
  cases hmin : ((hash_indices key k m).map (fun i => s.getD i 0)).min? with
  | none => rfl
  | some mv => exact length_raise _ _ s

theorem insertItem_mono (width k m : Nat) (s key : List Nat) (f j : Nat) :
    s.getD j 0 ≤ (insertItem width k m s key f).getD j 0 := by
  simp only [insertItem]
  cases hmin : ((hash_indices key k m).map (fun i => s.getD i 0)).min? with
  | none => exact Nat.le_refl _
  | some mv =>
    show s.getD j 0 ≤ ((hash_indices key k m).foldl _ s).getD j 0
    rw [getD_raise]
    split_ifs with h
    · exact h.2.1
    · exact Nat.le_refl _

theorem insertItem_le_cap (width k m : Nat) (s key : List Nat) (f : Nat)
    (hs : ∀ x ∈ s, x ≤ 2 ^ width - 1) :
    ∀ x ∈ insertItem width k m s key f, x ≤ 2 ^ width - 1 := by
  simp only [insertItem]
  cases hmin : ((hash_indices key k m).map (fun i => s.getD i 0)).min? with
  | none => exact hs
  | some mv =>
    intro x hx
    have hx' : x ∈ (hash_indices key k m).foldl
        (fun s i => if s.getD i 0 ≤ min (mv + f) (2 ^ width - 1)
          then s.set i (min (mv + f) (2 ^ width - 1)) else s) s := hx
    rcases mem_raise _ _ s x hx' with h | h
    · exact hs x h
    · rw [h, Nat.min_def]
      split_ifs <;> omega

theorem hash_indices_lt (key : List Nat) (k m : Nat) (hm : 1 ≤ m) :
    ∀ j ∈ hash_indices key k m, j < m := by
  intro j hj
  rcases List.mem_map.mp hj with ⟨i, _, rfl⟩
  exact Nat.mod_lt _ (by omega)

theorem hash_indices_length (key : List Nat) (k m : Nat) :
    (hash_indices key k m).length = k := by
  simp [hash_indices]

theorem insertItem?_eq_some (width k m : Nat) (s key : List Nat) (f : Nat)
    (hk : 1 ≤ k) :
    insertItem? width k m s key f = some (insertItem width k m s key f) := by
  simp only [insertItem?, insertItem]
  cases hmin : ((hash_indices key k m).map (fun i => s.getD i 0)).min? with
  | none =>
    exfalso
    rw [List.min?_eq_none_iff] at hmin
    have := congrArg List.length hmin
    simp [hash_indices_length] at this
    omega
  | some mv => rfl

theorem foldlM_insert?_eq_foldl (counter : List (List Nat × Nat))
    (width k m : Nat) (hk : 1 ≤ k) : ∀ s : List Nat,
    counter.foldlM (fun s kf => insertItem? width k m s kf.1 kf.2) s
      = some (counter.foldl (fun s kf => insertItem width k m s kf.1 kf.2) s) := by
  induction counter with
  | nil => intro s; rfl
  | cons kf rest ih =>
    intro s
    rw [List.foldlM_cons, insertItem?_eq_some width k m s kf.1 kf.2 hk]
    show rest.foldlM _ (insertItem width k m s kf.1 kf.2)
      = some ((kf :: rest).foldl _ s)
    rw [ih, List.foldl_cons]

/-- Whenever the sizing yields at least one hash function, the fallible
builder succeeds and agrees with the total builder `new`; the hypothesis
holds for every rate `p ∈ (0,1)` with a nonempty map, and fails exactly in
the degenerate sizings (`p = 1`, or the empty map). -/
theorem new?_eq_some (counter : List (List Nat × Nat)) (m k width : Nat)
    (hk : 1 ≤ k) :
    SpectralBloomFilter.new? counter m k width
      = some (SpectralBloomFilter.new counter m k width) := by
  unfold SpectralBloomFilter.new? SpectralBloomFilter.new
  rw [foldlM_insert?_eq_foldl counter width k m hk]
  rfl

/-- After inserting `(key, f)`, every candidate slot of `key` holds at least
`min f (2^width - 1)`. -/
theorem insertItem_own_ge (width k m : Nat) (s key : List Nat) (f : Nat)
    (hk : 1 ≤ k) (hm : 1 ≤ m) (hlen : s.length = m) :
    ∀ j ∈ hash_indices key k m,
      min f (2 ^ width - 1) ≤ (insertItem width k m s key f).getD j 0 := by
  intro j hj
  have hjm : j < m := hash_indices_lt key k m hm j hj
  simp only [insertItem]
  cases hmin : ((hash_indices key k m).map (fun i => s.getD i 0)).min? with
  | none =>
    exfalso
    rw [List.min?_eq_none_iff] at hmin
    have := congrArg List.length hmin
    simp [hash_indices_length] at this
    omega
  | some mv =>
    show min f (2 ^ width - 1) ≤ ((hash_indices key k m).foldl
      (fun s i => if s.getD i 0 ≤ min (mv + f) (2 ^ width - 1)
        then s.set i (min (mv + f) (2 ^ width - 1)) else s) s).getD j 0
    rw [getD_raise]
    split_ifs with h
    · omega
    · push_neg at h
      have hnot := h hj
      have hjlen : j < s.length := by omega
      by_cases hx : s.getD j 0 ≤ min (mv + f) (2 ^ width - 1)
      · have := hnot hx
        omega
      · omega

theorem length_foldl_insert (counter : List (List Nat × Nat)) (width k m : Nat) :
    ∀ s : List Nat,
      (counter.foldl (fun s kf => insertItem width k m s kf.1 kf.2) s).length
        = s.length := by
  induction counter with
  | nil => intro s; rfl
  | cons kf rest ih =>
    intro s
    simp only [List.foldl_cons]
    rw [ih, length_insertItem]

theorem foldl_insert_mono (counter : List (List Nat × Nat)) (width k m : Nat) :
    ∀ (s : List Nat) (j : Nat),
      s.getD j 0
        ≤ (counter.foldl (fun s kf => insertItem width k m s kf.1 kf.2) s).getD j 0 := by
  induction counter with
  | nil => intro s j; exact Nat.le_refl _
  | cons kf rest ih =>
    intro s j
    simp only [List.foldl_cons]
    exact Nat.le_trans (insertItem_mono width k m s kf.1 kf.2 j) (ih _ j)

theorem foldl_insert_le_cap (counter : List (List Nat × Nat)) (width k m : Nat) :
    ∀ s : List Nat, (∀ x ∈ s, x ≤ 2 ^ width - 1) →
      ∀ x ∈ counter.foldl (fun s kf => insertItem width k m s kf.1 kf.2) s,
        x ≤ 2 ^ width - 1 := by
  induction counter with
  | nil => intro s hs; exact hs
  | cons kf rest ih =>
    intro s hs
    simp only [List.foldl_cons]
    exact ih _ (insertItem_le_cap width k m s kf.1 kf.2 hs)

theorem length_new_sbf (counter : List (List Nat × Nat)) (m k width : Nat) :
    (SpectralBloomFilter.new counter m k width).sbf.length = m := by
  show (counter.foldl _ (List.replicate m 0)).length = m
  rw [length_foldl_insert, List.length_replicate]

theorem new_n_hash (counter : List (List Nat × Nat)) (m k width : Nat) :
    (SpectralBloomFilter.new counter m k width).n_hash_functions = k := rfl

/-- `get_frequency` on a freshly built filter, with its modulus
`sbf.len()` rewritten to the construction size `m`. -/
theorem getFrequency_new_eq (counter : List (List Nat × Nat)) (m k width : Nat)
    (key : List Nat) :
    getFrequency (SpectralBloomFilter.new counter m k width) key
      = ((hash_indices key k m).map
          (fun i => (SpectralBloomFilter.new counter m k width).sbf.getD i 0)).min? := by
  unfold getFrequency
  rw [new_n_hash, length_new_sbf]

theorem new_sbf_le_cap (counter : List (List Nat × Nat)) (m k width : Nat) :
    ∀ x ∈ (SpectralBloomFilter.new counter m k width).sbf, x ≤ 2 ^ width - 1 := by
  show ∀ x ∈ counter.foldl _ (List.replicate m 0), x ≤ 2 ^ width - 1
  exact foldl_insert_le_cap counter width k m _
    (fun x hx => by rw [List.eq_of_mem_replicate hx]; exact Nat.zero_le _)

/-- Core one-sided bound: the estimate of any key present in the counter is
at least `min` of its recorded frequency and the width cap. -/
theorem getFrequency_ge_core (counter : List (List Nat × Nat)) (m k width : Nat)
    (key : List Nat) (fx : Nat) (hm : 1 ≤ m) (hk : 1 ≤ k)
    (hmem : (key, fx) ∈ counter) :
    ∃ v, getFrequency (SpectralBloomFilter.new counter m k width) key = some v ∧
      min fx (2 ^ width - 1) ≤ v := by
  obtain ⟨l₁, l₂, rfl⟩ := List.append_of_mem hmem
  have hsbf : (SpectralBloomFilter.new (l₁ ++ (key, fx) :: l₂) m k width).sbf
      = l₂.foldl (fun s kf => insertItem width k m s kf.1 kf.2)
        (insertItem width k m
          (l₁.foldl (fun s kf => insertItem width k m s kf.1 kf.2)
            (List.replicate m 0)) key fx) := by
    show (l₁ ++ (key, fx) :: l₂).foldl _ _ = _
    rw [List.foldl_append, List.foldl_cons]
  have hlen1 : (l₁.foldl (fun s kf => insertItem width k m s kf.1 kf.2)
      (List.replicate m 0)).length = m := by
    rw [length_foldl_insert, List.length_replicate]
  have hlen : (SpectralBloomFilter.new (l₁ ++ (key, fx) :: l₂) m k width).sbf.length = m :=
    length_new_sbf _ m k width
  have hge : ∀ j ∈ hash_indices key k m,
      min fx (2 ^ width - 1)
        ≤ (SpectralBloomFilter.new (l₁ ++ (key, fx) :: l₂) m k width).sbf.getD j 0 := by
    intro j hj
    rw [hsbf]
    exact Nat.le_trans
      (insertItem_own_ge width k m _ key fx hk hm hlen1 j hj)
      (foldl_insert_mono l₂ width k m _ j)
  rw [getFrequency_new_eq]
  cases hmin : ((hash_indices key k m).map
      (fun i => (SpectralBloomFilter.new (l₁ ++ (key, fx) :: l₂) m k width).sbf.getD i 0)).min? with
  | none =>
    exfalso
    rw [List.min?_eq_none_iff] at hmin
    have := congrArg List.length hmin
    simp [hash_indices_length] at this
    omega
  | some a =>
    refine ⟨a, rfl, ?_⟩
    have hamem := List.min?_mem (fun x y : Nat => by omega) hmin
    rcases List.mem_map.mp hamem with ⟨j, hj, rfl⟩
    exact hge j hj

/-- Core saturation: a key whose frequency exceeds the cap estimates exactly
the cap. -/
theorem getFrequency_saturate_core (counter : List (List Nat × Nat)) (m k width : Nat)
    (key : List Nat) (fx : Nat) (hm : 1 ≤ m) (hk : 1 ≤ k)
    (hmem : (key, fx) ∈ counter) (hfx : 2 ^ width - 1 < fx) :
    getFrequency (SpectralBloomFilter.new counter m k width) key
      = some (2 ^ width - 1) := by
  obtain ⟨v, hv, hge⟩ := getFrequency_ge_core counter m k width key fx hm hk hmem
  have hcap : min fx (2 ^ width - 1) = 2 ^ width - 1 := by omega
  rw [hcap] at hge
  have hle : v ≤ 2 ^ width - 1 := by
    rw [getFrequency_new_eq] at hv
    have hamem := List.min?_mem (fun x y : Nat => by omega) hv
    rcases List.mem_map.mp hamem with ⟨j, hj, hjv⟩
    have hjm : j < (SpectralBloomFilter.new counter m k width).sbf.length := by
      rw [length_new_sbf]
      exact hash_indices_lt key k m hm j hj
    have hmem' : (SpectralBloomFilter.new counter m k width).sbf.getD j 0
        ∈ (SpectralBloomFilter.new counter m k width).sbf := by
      rw [List.getD_eq_getElem?_getD, List.getElem?_eq_getElem hjm]
      exact List.getElem_mem _
    rw [← hjv]
    exact new_sbf_le_cap counter m k width _ hmem'
  have hveq : v = 2 ^ width - 1 := by omega
  rw [hv, hveq]

theorem flatten_map_binPad_length (w : Nat) (hw : 0 < w) :
    ∀ s : List Nat, (∀ x ∈ s, x ≤ 2 ^ w - 1) →
      ((s.map (fun x => binPad w x)).flatten).length = s.length * w := by
  intro s
  induction s with
  | nil => intro _; simp
  | cons x xs ih =>
    intro hs
    have hx : x < 2 ^ w := by
      have h1 := hs x (by simp)
      have h2 : 0 < 2 ^ w := Nat.pos_pow_of_pos w (by omega)
      omega
    simp only [List.map_cons, List.flatten_cons, List.length_append,
      List.length_cons]
    rw [binPad_length w x hw hx, ih (fun y hy => hs y (by simp [hy]))]
    ring

/-! ## Claim theorems: Spectral Bloom Filter -/

/-- C1 counterexample — the claim as stated fails at two concrete inputs of
its domain:
* with the map `{"a" ↦ 5}` (key `"a"` = byte 97), width `W = 1` and the
  sizing output `(m, k) = (3, 2)` (what `optimal_size` returns for
  `p = 0.3`, `n = 1`), `get_frequency("a") = 1 < 5`: the bound
  `get_frequency(x) ≥ f[x]` fails when `f[x]` exceeds the cap `2^W - 1`;
* at rate `p = 1` (inside the claim's domain `(0,1]`), `ln 1 = 0` makes
  `optimal_size` return `(m, k) = (0, 0)`, and construction itself panics
  in `insert_item` (`.min().unwrap()` of an empty candidate list) on the
  same nonempty map, so no estimate is returned at all — the fallible
  builder `new?` is `none`. -/
theorem new_undershoots_above_cap :
    (getFrequency (SpectralBloomFilter.new [([97], 5)] 3 2 1) [97] = some 1 ∧
        1 < 5) ∧
      SpectralBloomFilter.new? [([97], 5)] 0 0 1 = none := by
  exact ⟨⟨by decide, by decide⟩, by decide⟩

/-- C1 as amended: for every key `x` of the frequency map,
`get_frequency(x) ≥ min(f[x], 2^W - 1)` — the no-undershoot bound holds up
to the width cap, on the rates where construction succeeds at all.  `(m, k)`
are the outputs of the floating-point sizing; `m ≥ 1 ∧ k ≥ 1` holds exactly
for the rates `p ∈ (0,1)` (nonempty map), while at `p = 1` the sizing is
`(0, 0)` and construction panics (second conjunct of the counterexample,
which forces excluding `p = 1` here). -/
theorem no_undershoot_up_to_cap (counter : List (List Nat × Nat))
    (m k width : Nat) (key : List Nat) (fx : Nat)
    (hm : 1 ≤ m) (hk : 1 ≤ k) (hw : 1 ≤ width) (hw31 : width ≤ 31)
    (hfx : fx < 4294967296) (hnd : (counter.map Prod.fst).Nodup)
    (hmem : (key, fx) ∈ counter) :
    ∃ v, getFrequency (SpectralBloomFilter.new counter m k width) key = some v ∧
      min fx (2 ^ width - 1) ≤ v :=
  getFrequency_ge_core counter m k width key fx hm hk hmem

/-- Witness for C1 (amended) at `{"a" ↦ 5}`, `W = 1`, `(m, k) = (3, 2)`. -/
theorem no_undershoot_up_to_cap_witness :
    ∃ v, getFrequency (SpectralBloomFilter.new [([97], 5)] 3 2 1) [97] = some v ∧
      min 5 (2 ^ 1 - 1) ≤ v :=
  no_undershoot_up_to_cap [([97], 5)] 3 2 1 [97] 5 (by decide) (by decide)
    (by decide) (by decide) (by decide) (by decide) (by decide)

/-- C3 counterexample: the claim's rate domain is `(0,1]`, but at `p = 1`
`optimal_size` returns `(m, k) = (0, 0)` and construction panics in
`insert_item` on any nonempty map — here `{"b" ↦ 5}` with `W = 2`, whose
frequency exceeds the cap `2^2 - 1 = 3` — so `get_frequency` never returns
`2^W - 1` there: the fallible builder `new?` is `none`. -/
theorem saturation_panics_at_rate_one :
    SpectralBloomFilter.new? [([98], 5)] 0 0 2 = none ∧ 2 ^ 2 - 1 < 5 := by
  exact ⟨by decide, by decide⟩

/-- C3 as amended: on the rates where construction succeeds — `p ∈ (0,1)`,
where the floating-point sizing yields `m ≥ 1` and `k ≥ 1` — a key whose
recorded frequency exceeds `2^W - 1` estimates exactly `2^W - 1`: the
counter saturates at the width cap and never wraps.  At `p = 1` the sizing
degenerates to `(0, 0)` and construction panics instead (the
counterexample). -/
theorem saturation_at_cap (counter : List (List Nat × Nat))
    (m k width : Nat) (key : List Nat) (fx : Nat)
    (hm : 1 ≤ m) (hk : 1 ≤ k) (hw : 1 ≤ width) (hw31 : width ≤ 31)
    (hfx32 : fx < 4294967296) (hnd : (counter.map Prod.fst).Nodup)
    (hmem : (key, fx) ∈ counter) (hfx : 2 ^ width - 1 < fx) :
    getFrequency (SpectralBloomFilter.new counter m k width) key
      = some (2 ^ width - 1) :=
  getFrequency_saturate_core counter m k width key fx hm hk hmem hfx

/-- Witness for C3 at `{"a" ↦ 5}`, `W = 1`, `(m, k) = (3, 2)`: the estimate
is exactly `2^1 - 1 = 1`. -/
theorem saturation_at_cap_witness :
    getFrequency (SpectralBloomFilter.new [([97], 5)] 3 2 1) [97]
      = some (2 ^ 1 - 1) :=
  saturation_at_cap [([97], 5)] 3 2 1 [97] 5 (by decide) (by decide) (by decide)
    (by decide) (by decide) (by decide) (by decide) (by decide)

/-- C4 counterexample — the claim as stated fails at two concrete inputs of
its domain:
* a key recorded with frequency `0` (the claim allows all non-negative
  `u32` frequencies) estimates `0`, not `> 0`: with `{"a" ↦ 0}`, `W = 1`,
  `(m, k) = (3, 2)`, `get_frequency("a") = 0`;
* at rate `p = 1` (inside the claim's domain `(0,1]`) the sizing is
  `(m, k) = (0, 0)` and construction panics on the nonempty map
  `{"c" ↦ 7}`, so no positive estimate is ever returned — `new?` is
  `none`. -/
theorem zero_frequency_zero_estimate :
    getFrequency (SpectralBloomFilter.new [([97], 0)] 3 2 1) [97] = some 0 ∧
      SpectralBloomFilter.new? [([99], 7)] 0 0 4 = none := by
  exact ⟨by decide, by decide⟩

/-- C4 as amended: every key recorded with a positive frequency has a
positive estimate (no false negatives for keys actually present in the
multiset), on the rates where construction succeeds: the hypotheses
`m ≥ 1 ∧ k ≥ 1` hold exactly for `p ∈ (0,1)` (nonempty map); at `p = 1`
the sizing is `(0, 0)` and construction panics (second conjunct of the
counterexample, which forces excluding `p = 1` here). -/
theorem no_false_negative_of_pos_freq (counter : List (List Nat × Nat))
    (m k width : Nat) (key : List Nat) (fx : Nat)
    (hm : 1 ≤ m) (hk : 1 ≤ k) (hw : 1 ≤ width) (hw31 : width ≤ 31)
    (hfx32 : fx < 4294967296) (hnd : (counter.map Prod.fst).Nodup)
    (hmem : (key, fx) ∈ counter) (hfx : 1 ≤ fx) :
    ∃ v, getFrequency (SpectralBloomFilter.new counter m k width) key = some v ∧
      0 < v := by
  obtain ⟨v, hv, hge⟩ := getFrequency_ge_core counter m k width key fx hm hk hmem
  refine ⟨v, hv, ?_⟩
  have h2 : 2 ≤ 2 ^ width := by
    calc 2 = 2 ^ 1 := rfl
    _ ≤ 2 ^ width := Nat.pow_le_pow_right (by omega) hw
  omega

/-- Witness for C4 (amended) at `{"a" ↦ 5}`, `W = 1`, `(m, k) = (3, 2)`. -/
theorem no_false_negative_of_pos_freq_witness :
    ∃ v, getFrequency (SpectralBloomFilter.new [([97], 5)] 3 2 1) [97] = some v ∧
      0 < v :=
  no_false_negative_of_pos_freq [([97], 5)] 3 2 1 [97] 5 (by decide) (by decide)
    (by decide) (by decide) (by decide) (by decide) (by decide) (by decide)

/-- C6: for the empty frequency map Rust's `optimal_size` yields
`m = 0, k = 0` (`-0.0` and `NaN` cast to `u32` are both `0`), the
construction succeeds with an empty slot array — but `get_frequency` then
panics (`.min().unwrap()` of an empty candidate list) for *every* queried
key instead of returning `0`: the code does neither of the two behaviors
the claim allows, and contradicts its own documentation ("0 if token does
not exist"). -/
theorem empty_map_query_panics (width : Nat) (key : List Nat) :
    getFrequency (SpectralBloomFilter.new [] 0 0 width) key = none := rfl

/-- C7: every slot of a freshly built filter holds a value of at most
`2^W - 1` (it fits in `W` bits), and the exported bit string has exactly
`size · W` characters. -/
theorem slots_within_width (counter : List (List Nat × Nat))
    (m k width : Nat) (hm : 1 ≤ m) (hk : 1 ≤ k) (hw : 1 ≤ width)
    (hw31 : width ≤ 31) :
    (∀ x ∈ (SpectralBloomFilter.new counter m k width).sbf, x ≤ 2 ^ width - 1) ∧
      (asBitString (SpectralBloomFilter.new counter m k width)).length
        = m * width := by
  refine ⟨new_sbf_le_cap counter m k width, ?_⟩
  show (((SpectralBloomFilter.new counter m k width).sbf.map
      (fun x => binPad (SpectralBloomFilter.new counter m k width).width x)).flatten).length
    = m * width
  have hwidth : (SpectralBloomFilter.new counter m k width).width = width := rfl
  rw [hwidth, flatten_map_binPad_length width (by omega) _
    (new_sbf_le_cap counter m k width), length_new_sbf]

/-- Witness for C7 at `{"a" ↦ 5}`, `W = 4`, `(m, k) = (3, 2)`. -/
theorem slots_within_width_witness :
    (∀ x ∈ (SpectralBloomFilter.new [([97], 5)] 3 2 4).sbf, x ≤ 2 ^ 4 - 1) ∧
      (asBitString (SpectralBloomFilter.new [([97], 5)] 3 2 4)).length = 3 * 4 :=
  slots_within_width [([97], 5)] 3 2 4 (by decide) (by decide) (by decide)
    (by decide)

/-- C8 counterexample — the claim as stated fails at two concrete inputs of
its domain:
* inserting the pairs of the map `{"g" ↦ 1, "a" ↦ 1}` (bytes 103 and 97)
  in the two possible iteration orders, with `W = 4` and the sizing output
  `(m, k) = (3, 2)` (what `optimal_size` returns for `p = 0.49`, `n = 2`),
  yields different counter arrays (`[1,0,1]` vs `[1,0,2]`): the
  conservative additive update is not order-insensitive;
* at rate `p = 1` (inside the claim's domain `(0,1]`) the sizing is
  `(m, k) = (0, 0)` and construction panics under *both* iteration orders
  of the same map, producing no counter array at all. -/
theorem new_order_sensitive :
    (SpectralBloomFilter.new [([103], 1), ([97], 1)] 3 2 4).sbf ≠
        (SpectralBloomFilter.new [([97], 1), ([103], 1)] 3 2 4).sbf ∧
      SpectralBloomFilter.new? [([103], 1), ([97], 1)] 0 0 4 = none ∧
      SpectralBloomFilter.new? [([97], 1), ([103], 1)] 0 0 4 = none := by
  exact ⟨by decide, by decide, by decide⟩

/-- C8 as amended: the final counter arrays may differ between iteration
orders, but the construction is a deterministic function of the iteration
sequence, and under *every* iteration order the one-sided estimate bound
`get_frequency(x) ≥ min(f[x], 2^W - 1)` holds for every key of the map —
on the rates where construction succeeds: the hypotheses `m ≥ 1 ∧ k ≥ 1`
hold exactly for `p ∈ (0,1)` (nonempty map), while at `p = 1` construction
panics under every order (second part of the counterexample, which forces
excluding `p = 1` here). -/
theorem order_free_guarantee (counter counter' : List (List Nat × Nat))
    (m k width : Nat) (hperm : counter.Perm counter')
    (hm : 1 ≤ m) (hk : 1 ≤ k) (key : List Nat) (fx : Nat)
    (hmem : (key, fx) ∈ counter) :
    (∃ v, getFrequency (SpectralBloomFilter.new counter m k width) key = some v ∧
        min fx (2 ^ width - 1) ≤ v) ∧
      (∃ v, getFrequency (SpectralBloomFilter.new counter' m k width) key = some v ∧
        min fx (2 ^ width - 1) ≤ v) :=
  ⟨getFrequency_ge_core counter m k width key fx hm hk hmem,
    getFrequency_ge_core counter' m k width key fx hm hk
      (hperm.mem_iff.mp hmem)⟩

/-- Witness for C8 (amended) at the two orders of `{"g" ↦ 1, "a" ↦ 1}`. -/
theorem order_free_guarantee_witness :
    (∃ v, getFrequency (SpectralBloomFilter.new [([103], 1), ([97], 1)] 3 2 4) [103]
        = some v ∧ min 1 (2 ^ 4 - 1) ≤ v) ∧
      (∃ v, getFrequency (SpectralBloomFilter.new [([97], 1), ([103], 1)] 3 2 4) [103]
        = some v ∧ min 1 (2 ^ 4 - 1) ≤ v) :=
  order_free_guarantee [([103], 1), ([97], 1)] [([97], 1), ([103], 1)] 3 2 4
    (by decide) (by decide) (by decide) [103] 1 (by decide)

/-! ## Claim theorems: hash -/

/-- C9 counterexample: the legacy `murmurhash3_x86_32` at `src/murmur3.rs`
has no empty-input special case; on the empty byte sequence with seed `1` it
returns `fmix32 1 ≠ 0`, so "hash(empty, s) = 0 for every seed s" fails for
that implementation (its own test only checks seed 0). -/
theorem murmurLegacy_nonzero_on_empty : murmurLegacy [] 1 ≠ 0 := by
  decide

/-- C9 as amended: the hash actually used by the filter
(`src/hasher/murmur3.rs`) returns 0 on the empty byte sequence for *every*
seed; the legacy copy at `src/murmur3.rs` returns `fmix32 seed`, which is 0
only for seed 0. -/
theorem murmur_empty_zero (seed : Nat) :
    murmurhash3_x86_32 [] seed = 0 ∧ murmurLegacy [] 0 = 0 :=
  ⟨rfl, by decide⟩

end StaticWebsiteSearch
